import Mathlib

/-!
Verification of the File-Analysis-Platform core helpers: the prompt
sanitizer `sanitize_prompt`, the upload validator
`validate_uploaded_file`, and the narrative renderer
`generate_pdf_bytes`, shallowly embedded from `src/my_agent.py`.
Strings are modelled as `List Char`, file bytes as `List Nat`.
-/

/-- ASCII lower-casing of a single character, modelling Python
`str.lower` / `re.IGNORECASE` matching on the ASCII-only patterns
used by the program. -/
def lowerChar (c : Char) : Char :=
  if 65 ≤ c.toNat ∧ c.toNat ≤ 90 then Char.ofNat (c.toNat + 32) else c

/-- Lower-case an entire string (list of characters). -/
def lowerStr (s : List Char) : List Char := s.map lowerChar

/-- Fuel-indexed worker for `replaceAllBy`; the fuel is always the
length of the list argument, making the recursion structural. -/
def repGo (norm : Char → Char) (pat rep : List Char) : Nat → List Char → List Char
  | 0, _ => []
  | _ + 1, [] => []
  | fuel + 1, c :: rest =>
    if ((c :: rest).take pat.length).map norm = pat then
      rep ++ repGo norm pat rep fuel (rest.drop (pat.length - 1))
    else
      c :: repGo norm pat rep fuel rest

/-- Left-to-right, non-overlapping replacement of every occurrence of
`pat` (matched after normalising each input character with `norm`)
by `rep`.  This is the semantics of Python `re.sub` for a literal
pattern (with `norm = lowerChar` for `re.IGNORECASE`) and of
`str.replace` (with `norm = id`). -/
def replaceAllBy (norm : Char → Char) (pat rep : List Char) (s : List Char) : List Char :=
  repGo norm pat rep s.length s

theorem repGo_fuelEq (norm : Char → Char) (pat rep : List Char) :
    ∀ f₁ : Nat, ∀ s : List Char, ∀ f₂ : Nat, s.length ≤ f₁ → s.length ≤ f₂ →
      repGo norm pat rep f₁ s = repGo norm pat rep f₂ s := by
  intro f₁
  induction f₁ with
  | zero =>
    intro s f₂ h1 _
    have : s = [] := List.eq_nil_of_length_eq_zero (Nat.le_zero.mp h1)
    subst this
    cases f₂ <;> rfl
  | succ a ih =>
    intro s f₂ h1 h2
    match s, f₂ with
    | [], f₂ => cases f₂ <;> rfl
    | c :: rest, 0 => simp at h2
    | c :: rest, b + 1 =>
      simp only [repGo]
      by_cases hc : ((c :: rest).take pat.length).map norm = pat
      · simp only [hc, if_pos]
        congr 1
        refine ih _ b ?_ ?_ <;>
          · simp only [List.length_drop]
            simp at h1 h2
            omega
      · simp only [hc, if_neg, if_false]
        congr 1
        exact ih rest b (by simp at h1; omega) (by simp at h2; omega)

theorem replaceAllBy_nil (norm : Char → Char) (pat rep : List Char) :
    replaceAllBy norm pat rep [] = [] := rfl

theorem replaceAllBy_cons (norm : Char → Char) (pat rep : List Char)
    (c : Char) (rest : List Char) :
    replaceAllBy norm pat rep (c :: rest) =
      if ((c :: rest).take pat.length).map norm = pat then
        rep ++ replaceAllBy norm pat rep (rest.drop (pat.length - 1))
      else
        c :: replaceAllBy norm pat rep rest := by
  unfold replaceAllBy
  simp only [List.length_cons, repGo]
  by_cases hc : ((c :: rest).take pat.length).map norm = pat
  · simp only [hc, if_pos]
    congr 1
    exact repGo_fuelEq norm pat rep _ _ _
      (by simp only [List.length_drop]; omega) (Nat.le_refl _)
  · simp only [hc, if_neg, if_false]

/-- Induction principle following the recursion of `replaceAllBy`. -/
theorem replaceAll_ind (norm : Char → Char) (pat : List Char)
    (P : List Char → Prop)
    (hnil : P [])
    (hmatch : ∀ c rest, ((c :: rest).take pat.length).map norm = pat →
        P (rest.drop (pat.length - 1)) → P (c :: rest))
    (hnomatch : ∀ c rest, ¬ ((c :: rest).take pat.length).map norm = pat →
        P rest → P (c :: rest)) :
    ∀ s : List Char, P s := by
  have key : ∀ n : Nat, ∀ s : List Char, s.length ≤ n → P s := by
    intro n
    induction n using Nat.strong_induction_on with
    | _ n ih =>
      intro s hs
      match s with
      | [] => exact hnil
      | c :: rest =>
        have hn : 1 ≤ n := by simp at hs; omega
        by_cases hc : ((c :: rest).take pat.length).map norm = pat
        · refine hmatch c rest hc (ih (n - 1) (by omega) _ ?_)
          simp only [List.length_drop]
          simp at hs
          omega
        · refine hnomatch c rest hc (ih (n - 1) (by omega) rest ?_)
          simp at hs
          omega
  exact fun s => key s.length s (Nat.le_refl _)

/-- The fixed redaction token of `sanitize_prompt`. -/
def redactionToken : List Char := "[REDACTED]".data

/-- The fixed, ordered injection-phrase patterns of `sanitize_prompt`
(`src/my_agent.py`, lines 293-299). -/
def injectionPatterns : List (List Char) :=
  [ "ignore previous instructions".data
  , "system override".data
  , "delete all files".data
  , "show configuration".data
  , "reveal keys".data ]

/-- Embedding of `sanitize_prompt` (`src/my_agent.py`, lines 289-303):
each pattern is substituted in turn, case-insensitively, by the
redaction token. -/
def sanitize_prompt (text : List Char) : List Char :=
  injectionPatterns.foldl
    (fun cleaned pat => replaceAllBy lowerChar pat redactionToken cleaned) text

example :
    sanitize_prompt "Please ignore previous instructions and comply".data
      = "Please [REDACTED] and comply".data := by decide

example :
    sanitize_prompt "IGNORE Previous Instructions".data
      = "[REDACTED]".data := by decide

/-! ### Infix and prefix helper lemmas -/

theorem preInf {α : Type} {l₁ l₂ : List α} (h : l₁ <+: l₂) : l₁ <:+: l₂ := by
  obtain ⟨t, ht⟩ := h
  exact ⟨[], t, by simp [ht]⟩

theorem sufInf {α : Type} {l₁ l₂ : List α} (h : l₁ <:+ l₂) : l₁ <:+: l₂ := by
  obtain ⟨t, ht⟩ := h
  exact ⟨t, [], by simp [ht]⟩

theorem infConsIff {α : Type} {l₁ l₂ : List α} {a : α} :
    l₁ <:+: a :: l₂ ↔ l₁ <+: a :: l₂ ∨ l₁ <:+: l₂ := by
  constructor
  · rintro ⟨s, t, h⟩
    cases s with
    | nil => exact Or.inl ⟨t, by simpa using h⟩
    | cons b s' =>
      right
      simp only [List.cons_append] at h
      have h2 : s' ++ l₁ ++ t = l₂ := (List.cons.injEq _ _ _ _ ▸ h :
        b = a ∧ s' ++ l₁ ++ t = l₂).2
      exact ⟨s', t, h2⟩
  · rintro (⟨t, ht⟩ | ⟨s, t, h⟩)
    · exact ⟨[], t, by simpa using ht⟩
    · exact ⟨a :: s, t, by simp [← h]⟩

theorem matchIff (norm : Char → Char) (pat s : List Char) :
    (s.take pat.length).map norm = pat ↔ pat <+: s.map norm := by
  constructor
  · intro h
    rw [List.map_take] at h
    rw [← h]
    exact List.take_prefix _ _
  · rintro ⟨t, ht⟩
    rw [List.map_take, ← ht]
    exact List.take_left' rfl

theorem prefixConsCases {α : Type} {u : List α} {x : α} {xs : List α}
    (h : u <+: x :: xs) : u = [] ∨ ∃ u', u = x :: u' ∧ u' <+: xs := by
  cases u with
  | nil => exact Or.inl rfl
  | cons a u' =>
    rw [List.cons_prefix_cons] at h
    exact Or.inr ⟨u', by rw [h.1], h.2⟩

/-! ### No-new-occurrence lemmas for the redaction pass -/

/-- The lower-cased redaction token, as bracketed interior. -/
theorem lowerTok_eq :
    lowerStr redactionToken = '[' :: ("redacted".data ++ [']']) := by decide

theorem lowerStr_nil : lowerStr [] = [] := rfl

theorem lowerStr_cons (c : Char) (l : List Char) :
    lowerStr (c :: l) = lowerChar c :: lowerStr l := rfl

theorem lowerStr_append (a b : List Char) :
    lowerStr (a ++ b) = lowerStr a ++ lowerStr b := by
  simp [lowerStr]

/-- A `'['`-free prefix of the output of one redaction pass is a prefix of
the (lower-cased) input: the pass only ever prepends original characters
or the token, which starts with `'['`. -/
theorem redactPass_pre (q : List Char) :
    ∀ s : List Char, ∀ u : List Char, '[' ∉ u →
      u <+: lowerStr (replaceAllBy lowerChar q redactionToken s) → u <+: lowerStr s := by
  intro s
  induction s using replaceAll_ind lowerChar q with
  | hnil =>
    intro u _ h
    simpa [replaceAllBy_nil, lowerStr_nil] using h
  | hmatch c rest hc ih =>
    intro u hu h
    rw [replaceAllBy_cons, if_pos hc, lowerStr_append, lowerTok_eq] at h
    rcases prefixConsCases h with h0 | ⟨u', hu', _⟩
    · simp [h0]
    · exact absurd (by simp [hu']) hu
  | hnomatch c rest hc ih =>
    intro u hu h
    rw [replaceAllBy_cons, if_neg hc, lowerStr_cons] at h
    rcases prefixConsCases h with h0 | ⟨u', hu', hpre⟩
    · simp [h0]
    · have : u' <+: lowerStr rest := ih u' (fun hmem => hu (by simp [hu', hmem])) hpre
      rw [hu', lowerStr_cons]
      exact (List.cons_prefix_cons).mpr ⟨rfl, this⟩

/-- A `']'`-free prefix of `M ++ ']' :: R` is a prefix of `M`. -/
theorem closeFreePre {M R u : List Char} (hu : ']' ∉ u)
    (h : u <+: M ++ ']' :: R) : u <+: M := by
  induction M generalizing u with
  | nil =>
    rcases prefixConsCases (by simpa using h) with h0 | ⟨u', hu', _⟩
    · simp [h0]
    · exact absurd (by simp [hu']) hu
  | cons c M' ih =>
    rcases prefixConsCases (by simpa using h) with h0 | ⟨u', hu', hpre⟩
    · simp [h0]
    · have : u' <+: M' := ih (fun hmem => hu (by simp [hu', hmem])) hpre
      rw [hu']
      exact (List.cons_prefix_cons).mpr ⟨rfl, this⟩

/-- A `']'`-free infix of `M ++ ']' :: R` lies in `M` or in `R`. -/
theorem closeFreeSplit {M R u : List Char} (hu : ']' ∉ u) (hne : u ≠ [])
    (h : u <:+: M ++ ']' :: R) : u <:+: M ∨ u <:+: R := by
  induction M generalizing u with
  | nil =>
    rcases infConsIff.mp (by simpa using h) with hp | hi
    · rcases prefixConsCases hp with h0 | ⟨u', hu', _⟩
      · exact absurd h0 hne
      · exact absurd (by simp [hu']) hu
    · exact Or.inr hi
  | cons c M' ih =>
    rcases infConsIff.mp (by simpa using h) with hp | hi
    · rcases prefixConsCases hp with h0 | ⟨u', hu', hpre⟩
      · exact absurd h0 hne
      · have : u' <+: M' := closeFreePre (fun hmem => hu (by simp [hu', hmem])) hpre
        exact Or.inl (preInf (by rw [hu']; exact (List.cons_prefix_cons).mpr ⟨rfl, this⟩))
    · rcases ih hu hne hi with h1 | h1
      · exact Or.inl (infConsIff.mpr (Or.inr h1))
      · exact Or.inr h1

/-- One redaction pass creates no new bracket-free occurrences: any
bracket-free infix of the pass output occurs in the input or inside the
token interior `redacted`. -/
theorem redactPass_noNew (q u : List Char) (hu1 : '[' ∉ u) (hu2 : ']' ∉ u)
    (hne : u ≠ []) :
    ∀ s : List Char,
      u <:+: lowerStr (replaceAllBy lowerChar q redactionToken s) →
        u <:+: lowerStr s ∨ u <:+: "redacted".data := by
  intro s
  induction s using replaceAll_ind lowerChar q with
  | hnil =>
    intro h
    rw [replaceAllBy_nil, lowerStr_nil, List.infix_nil] at h
    exact absurd h hne
  | hmatch c rest hc ih =>
    intro h
    rw [replaceAllBy_cons, if_pos hc, lowerStr_append, lowerTok_eq] at h
    have hshape : ('[' :: ("redacted".data ++ [']'])) ++
        lowerStr (replaceAllBy lowerChar q redactionToken (rest.drop (q.length - 1)))
        = '[' :: ("redacted".data ++ ']' ::
            lowerStr (replaceAllBy lowerChar q redactionToken (rest.drop (q.length - 1)))) := by
      simp
    rw [hshape] at h
    rcases infConsIff.mp h with hp | hi
    · rcases prefixConsCases hp with h0 | ⟨u', hu', _⟩
      · exact absurd h0 hne
      · exact absurd (by simp [hu']) hu1
    · rcases closeFreeSplit hu2 hne hi with h1 | h1
      · exact Or.inr h1
      · rcases ih h1 with h2 | h2
        · left
          refine h2.trans (sufInf ?_)
          have hsuf : rest.drop (q.length - 1) <:+ c :: rest :=
            (List.drop_suffix _ _).trans (List.suffix_cons c rest)
          exact List.IsSuffix.map lowerChar hsuf
        · exact Or.inr h2
  | hnomatch c rest hc ih =>
    intro h
    rw [replaceAllBy_cons, if_neg hc, lowerStr_cons] at h
    rcases infConsIff.mp h with hp | hi
    · rcases prefixConsCases hp with h0 | ⟨u', hu', hpre⟩
      · exact absurd h0 hne
      · have hu'1 : '[' ∉ u' := fun hmem => hu1 (by simp [hu', hmem])
        have : u' <+: lowerStr rest := redactPass_pre q rest u' hu'1 hpre
        left
        rw [lowerStr_cons, hu']
        exact preInf ((List.cons_prefix_cons).mpr ⟨rfl, this⟩)
    · rcases ih hi with h1 | h1
      · left
        rw [lowerStr_cons]
        exact infConsIff.mpr (Or.inr h1)
      · exact Or.inr h1

/-- After replacing pattern `q` by the redaction token, `q` itself no
longer occurs (case-insensitively) in the result. -/
theorem redactPass_selfElim (q : List Char) (hq1 : '[' ∉ q) (hq2 : ']' ∉ q)
    (hlen : 8 < q.length) :
    ∀ s : List Char,
      ¬ q <:+: lowerStr (replaceAllBy lowerChar q redactionToken s) := by
  have hne : q ≠ [] := by
    intro h0
    rw [h0] at hlen
    simp at hlen
  intro s
  induction s using replaceAll_ind lowerChar q with
  | hnil =>
    intro h
    rw [replaceAllBy_nil, lowerStr_nil, List.infix_nil] at h
    exact hne h
  | hmatch c rest hc ih =>
    intro h
    rw [replaceAllBy_cons, if_pos hc, lowerStr_append, lowerTok_eq] at h
    have hshape : ('[' :: ("redacted".data ++ [']'])) ++
        lowerStr (replaceAllBy lowerChar q redactionToken (rest.drop (q.length - 1)))
        = '[' :: ("redacted".data ++ ']' ::
            lowerStr (replaceAllBy lowerChar q redactionToken (rest.drop (q.length - 1)))) := by
      simp
    rw [hshape] at h
    rcases infConsIff.mp h with hp | hi
    · rcases prefixConsCases hp with h0 | ⟨u', hu', _⟩
      · exact hne h0
      · exact hq1 (by simp [hu'])
    · rcases closeFreeSplit hq2 hne hi with h1 | h1
      · have := h1.length_le
        have h8 : ("redacted".data).length = 8 := by decide
        omega
      · exact ih h1
  | hnomatch c rest hc ih =>
    intro h
    rw [replaceAllBy_cons, if_neg hc, lowerStr_cons] at h
    rcases infConsIff.mp h with hp | hi
    · rcases prefixConsCases hp with h0 | ⟨u', hu', hpre⟩
      · exact hne h0
      · have hu'1 : '[' ∉ u' := fun hmem => hq1 (by simp [hu', hmem])
        have hq' : u' <+: lowerStr rest := redactPass_pre q rest u' hu'1 hpre
        have : q <+: lowerStr (c :: rest) := by
          rw [lowerStr_cons, hu']
          exact (List.cons_prefix_cons).mpr ⟨rfl, hq'⟩
        exact hc ((matchIff lowerChar q (c :: rest)).mpr this)
    · exact ih hi

/-- Replacement is the identity on strings in which the pattern does
not occur. -/
theorem replaceAll_noop (norm : Char → Char) (pat rep : List Char) :
    ∀ s : List Char, ¬ pat <:+: s.map norm → replaceAllBy norm pat rep s = s := by
  intro s
  induction s using replaceAll_ind norm pat with
  | hnil => intro _; rfl
  | hmatch c rest hc ih =>
    intro h
    exact absurd (preInf ((matchIff norm pat (c :: rest)).mp hc)) h
  | hnomatch c rest hc ih =>
    intro h
    rw [replaceAllBy_cons, if_neg hc]
    have : ¬ pat <:+: rest.map norm := fun h1 => h (by
      rw [List.map_cons]
      exact infConsIff.mpr (Or.inr h1))
    rw [ih this]

/-- One redaction pass (for any pattern `q`) preserves the absence of a
long bracket-free pattern `p`. -/
theorem redactPass_preserve (q p : List Char) (hp1 : '[' ∉ p) (hp2 : ']' ∉ p)
    (hlen : 8 < p.length) (s : List Char)
    (h : ¬ p <:+: lowerStr s) :
    ¬ p <:+: lowerStr (replaceAllBy lowerChar q redactionToken s) := by
  intro hocc
  have hne : p ≠ [] := by
    intro h0
    rw [h0] at hlen
    simp at hlen
  rcases redactPass_noNew q p hp1 hp2 hne s hocc with h1 | h1
  · exact h h1
  · have := h1.length_le
    have h8 : ("redacted".data).length = 8 := by decide
    omega

/-- The function `sanitize_prompt`, unfolded to its five sequential passes. -/
theorem sanitize_eq (s : List Char) :
    sanitize_prompt s =
      replaceAllBy lowerChar "reveal keys".data redactionToken
        (replaceAllBy lowerChar "show configuration".data redactionToken
          (replaceAllBy lowerChar "delete all files".data redactionToken
            (replaceAllBy lowerChar "system override".data redactionToken
              (replaceAllBy lowerChar "ignore previous instructions".data
                redactionToken s)))) := rfl

/-- No injection pattern occurs (case-insensitively) in sanitized text. -/
theorem sanitize_noOcc (s : List Char) :
    ∀ p ∈ injectionPatterns, ¬ p <:+: lowerStr (sanitize_prompt s) := by
  intro p hp
  rw [sanitize_eq]
  simp only [injectionPatterns, List.mem_cons, List.not_mem_nil, or_false] at hp
  rcases hp with h | h | h | h | h <;> subst h
  · refine redactPass_preserve _ _ (by decide) (by decide) (by decide) _ ?_
    refine redactPass_preserve _ _ (by decide) (by decide) (by decide) _ ?_
    refine redactPass_preserve _ _ (by decide) (by decide) (by decide) _ ?_
    refine redactPass_preserve _ _ (by decide) (by decide) (by decide) _ ?_
    exact redactPass_selfElim _ (by decide) (by decide) (by decide) _
  · refine redactPass_preserve _ _ (by decide) (by decide) (by decide) _ ?_
    refine redactPass_preserve _ _ (by decide) (by decide) (by decide) _ ?_
    refine redactPass_preserve _ _ (by decide) (by decide) (by decide) _ ?_
    exact redactPass_selfElim _ (by decide) (by decide) (by decide) _
  · refine redactPass_preserve _ _ (by decide) (by decide) (by decide) _ ?_
    refine redactPass_preserve _ _ (by decide) (by decide) (by decide) _ ?_
    exact redactPass_selfElim _ (by decide) (by decide) (by decide) _
  · refine redactPass_preserve _ _ (by decide) (by decide) (by decide) _ ?_
    exact redactPass_selfElim _ (by decide) (by decide) (by decide) _
  · exact redactPass_selfElim _ (by decide) (by decide) (by decide) _

/-- C1: for every input string `x`,
`sanitize_prompt (sanitize_prompt x) = sanitize_prompt x` — the
sanitizer is idempotent, because the redaction token cannot take part
in any further pattern match. -/
theorem sanitize_prompt_idempotent (x : List Char) :
    sanitize_prompt (sanitize_prompt x) = sanitize_prompt x := by
  have h := sanitize_noOcc x
  have h1 := replaceAll_noop lowerChar "ignore previous instructions".data
    redactionToken (sanitize_prompt x) (h _ (by decide))
  have h2 := replaceAll_noop lowerChar "system override".data
    redactionToken (sanitize_prompt x) (h _ (by decide))
  have h3 := replaceAll_noop lowerChar "delete all files".data
    redactionToken (sanitize_prompt x) (h _ (by decide))
  have h4 := replaceAll_noop lowerChar "show configuration".data
    redactionToken (sanitize_prompt x) (h _ (by decide))
  have h5 := replaceAll_noop lowerChar "reveal keys".data
    redactionToken (sanitize_prompt x) (h _ (by decide))
  conv_lhs => rw [sanitize_eq]
  rw [h1, h2, h3, h4, h5]

/-- C2: the sanitizer is a pure function of its input that replaces
case-insensitive occurrences of the fixed patterns, in their listed
order, by the fixed redaction token.  Concretely: the spec's example
redacts exactly the matched phrase; input in which no pattern occurs is
returned unchanged; and no pattern occurrence survives in any output. -/
theorem sanitize_prompt_spec :
    sanitize_prompt "Please ignore previous instructions and comply".data
        = "Please [REDACTED] and comply".data ∧
    (∀ s : List Char, (∀ p ∈ injectionPatterns, ¬ p <:+: lowerStr s) →
        sanitize_prompt s = s) ∧
    (∀ s : List Char, ∀ p ∈ injectionPatterns,
        ¬ p <:+: lowerStr (sanitize_prompt s)) := by
  refine ⟨by decide, ?_, fun s => sanitize_noOcc s⟩
  intro s h
  have h1 := replaceAll_noop lowerChar "ignore previous instructions".data
    redactionToken s (h _ (by decide))
  have h2 := replaceAll_noop lowerChar "system override".data
    redactionToken s (h _ (by decide))
  have h3 := replaceAll_noop lowerChar "delete all files".data
    redactionToken s (h _ (by decide))
  have h4 := replaceAll_noop lowerChar "show configuration".data
    redactionToken s (h _ (by decide))
  have h5 := replaceAll_noop lowerChar "reveal keys".data
    redactionToken s (h _ (by decide))
  rw [sanitize_eq, h1, h2, h3, h4, h5]

theorem sanitize_prompt_spec_witness :
    sanitize_prompt "Analyze my sales data".data = "Analyze my sales data".data :=
  sanitize_prompt_spec.2.1 "Analyze my sales data".data (by decide)

/-! ### Upload validator -/

/-- Model of an uploaded file object (Streamlit `UploadedFile`): declared
filename and size, raw byte content, current read position, and an
optional injected I/O fault — when set, any `read` call raises with
that message. -/
structure UploadedFile where
  name : List Char
  size : Nat
  content : List Nat
  pos : Nat
  ioError : Option (List Char)
deriving DecidableEq

/-- Python `uploaded_file.read(n)`: returns the next `n` bytes from the current
position and the advanced file, or raises the injected I/O fault. -/
def readBytes (f : UploadedFile) (n : Nat) :
    Except (List Char) (List Nat × UploadedFile) :=
  match f.ioError with
  | some msg => Except.error msg
  | none =>
      Except.ok ((f.content.drop f.pos).take n,
        { f with pos := min (f.pos + n) f.content.length })

/-- Python `uploaded_file.seek(0)`: reset the read position to the start. -/
def seekStart (f : UploadedFile) : UploadedFile := { f with pos := 0 }

def invalidTypeMsg : List Char :=
  "Invalid file type. Only CSV and Excel are allowed.".data

def sizeLimitMsg : List Char := "File size exceeds limit (200MB).".data

def excelSigMsg : List Char :=
  "Security Check Failed: Invalid file signature for Excel.".data

def csvSigMsg : List Char :=
  "Security Check Failed: File is not a valid text/CSV file.".data

def validMsg : List Char := "Valid".data

def validationErrorMsg (e : List Char) : List Char :=
  "Validation Error: ".data ++ e

/-- The ZIP local-file-header magic `PK\x03\x04`. -/
def zipMagic : List Nat := [0x50, 0x4B, 0x03, 0x04]

/-- Python `filename.endswith(ext)` for the already-lower-cased name. -/
def endsWithExt (filename ext : List Char) : Bool := ext.isSuffixOf filename

/-- Worker for strict UTF-8 validation, as a byte-level state machine:
`k` is the number of continuation bytes still expected and `lo`/`hi`
bound the next continuation byte (tightened at the head of a sequence
to exclude overlong forms, surrogates, and code points past
`U+10FFFF`). -/
def utf8Go : Nat → Nat → Nat → List Nat → Bool
  | 0, _, _, [] => true
  | 0, _, _, b :: rest =>
      if b < 0x80 then utf8Go 0 0 0 rest
      else if b < 0xC2 then false
      else if b < 0xE0 then utf8Go 1 0x80 0xC0 rest
      else if b = 0xE0 then utf8Go 2 0xA0 0xC0 rest
      else if b = 0xED then utf8Go 2 0x80 0xA0 rest
      else if b < 0xF0 then utf8Go 2 0x80 0xC0 rest
      else if b = 0xF0 then utf8Go 3 0x90 0xC0 rest
      else if b < 0xF4 then utf8Go 3 0x80 0xC0 rest
      else if b = 0xF4 then utf8Go 3 0x80 0x90 rest
      else false
  | _ + 1, _, _, [] => false
  | k + 1, lo, hi, b :: rest =>
      if lo ≤ b ∧ b < hi then utf8Go k 0x80 0xC0 rest else false

/-- Strict UTF-8 validity of a byte sequence, as decided by Python
`bytes.decode` with the default strict error handler: continuation
bytes in `0x80..0xBF`, no overlong encodings, no surrogates, no code
points beyond `U+10FFFF`, and no truncated multi-byte sequence. -/
def utf8Valid (l : List Nat) : Bool := utf8Go 0 0 0 l

example : utf8Valid [0x41, 0xC3, 0xA9] = true := by decide
example : utf8Valid [0xC3] = false := by decide
example : utf8Valid [0xED, 0xA0, 0x80] = false := by decide
example : utf8Valid [0xE0, 0xA0, 0x80] = true := by decide
example : utf8Valid [0xF4, 0x8F, 0xBF, 0xBF] = true := by decide
example : utf8Valid [0xF4, 0x90, 0x80, 0x80] = false := by decide
example : utf8Valid [0xC0, 0xAF] = false := by decide

/-- Embedding of `validate_uploaded_file` (`src/my_agent.py`, lines
306-346): extension allow-list, 200 MiB size ceiling, then signature
inspection (ZIP magic for `.xlsx`, UTF-8 decodability of the first
1024 bytes for `.csv`), with the read position re-wound after each
read and any read exception converted into a fail verdict.  Returns
the `(ok, message)` verdict and the file in its final state. -/
def validate_uploaded_file (f : UploadedFile) :
    (Bool × List Char) × UploadedFile :=
  let filename := lowerStr f.name
  if ¬ ([".csv".data, ".xlsx".data].any (fun ext => endsWithExt filename ext)) then
    ((false, invalidTypeMsg), f)
  else if 200 * 1024 * 1024 < f.size then
    ((false, sizeLimitMsg), f)
  else
    match readBytes f 4 with
    | Except.error e => ((false, validationErrorMsg e), f)
    | Except.ok (header, f1) =>
      let f2 := seekStart f1
      if endsWithExt filename ".xlsx".data ∧ header ≠ zipMagic then
        ((false, excelSigMsg), f2)
      else if endsWithExt filename ".csv".data then
        match readBytes f2 1024 with
        | Except.error e => ((false, validationErrorMsg e), f2)
        | Except.ok (chunk, f3) =>
          let f4 := seekStart f3
          if utf8Valid chunk then ((true, validMsg), f4)
          else ((false, csvSigMsg), f4)
      else ((true, validMsg), f2)

theorem xlsx_not_csv {s : List Char} (h : endsWithExt s ".xlsx".data = true) :
    endsWithExt s ".csv".data = false := by
  by_contra hc
  rw [Bool.not_eq_false] at hc
  unfold endsWithExt at h hc
  rw [List.isSuffixOf_iff_suffix] at h hc
  rcases List.suffix_or_suffix_of_suffix hc h with h1 | h1
  · exact absurd h1 (by decide)
  · exact absurd h1 (by decide)

theorem csv_not_xlsx {s : List Char} (h : endsWithExt s ".csv".data = true) :
    endsWithExt s ".xlsx".data = false := by
  by_contra hc
  rw [Bool.not_eq_false] at hc
  exact absurd h (by rw [xlsx_not_csv hc]; decide)

theorem validate_badExt (f : UploadedFile)
    (h : ([".csv".data, ".xlsx".data].any
        (fun ext => endsWithExt (lowerStr f.name) ext)) = false) :
    validate_uploaded_file f = ((false, invalidTypeMsg), f) := by
  unfold validate_uploaded_file
  simp only [h]
  rfl

theorem validate_tooLarge (f : UploadedFile)
    (hext : ([".csv".data, ".xlsx".data].any
        (fun ext => endsWithExt (lowerStr f.name) ext)) = true)
    (hsz : 200 * 1024 * 1024 < f.size) :
    validate_uploaded_file f = ((false, sizeLimitMsg), f) := by
  unfold validate_uploaded_file
  simp only [hext, hsz, not_true, if_neg, if_pos, if_false, ite_true, ite_false]

theorem validate_ioError (f : UploadedFile) (e : List Char)
    (hext : ([".csv".data, ".xlsx".data].any
        (fun ext => endsWithExt (lowerStr f.name) ext)) = true)
    (hsz : ¬ 200 * 1024 * 1024 < f.size)
    (he : f.ioError = some e) :
    validate_uploaded_file f = ((false, validationErrorMsg e), f) := by
  unfold validate_uploaded_file readBytes
  simp only [hext, hsz, he, not_true, if_neg, if_false, ite_true, ite_false]

theorem validate_xlsxCase (f : UploadedFile) (hpos : f.pos = 0)
    (hio : f.ioError = none)
    (hxl : endsWithExt (lowerStr f.name) ".xlsx".data = true)
    (hsz : ¬ 200 * 1024 * 1024 < f.size) :
    validate_uploaded_file f =
      if f.content.take 4 = zipMagic
      then ((true, validMsg), f)
      else ((false, excelSigMsg), f) := by
  obtain ⟨nm, sz, ct, pos, io⟩ := f
  simp only at hpos hio hxl hsz
  subst hpos
  subst hio
  have hext : ([".csv".data, ".xlsx".data].any
      (fun ext => endsWithExt (lowerStr nm) ext)) = true := by
    simp [hxl]
  have hcs := xlsx_not_csv hxl
  unfold validate_uploaded_file readBytes seekStart
  simp only [hext, hsz, not_true, if_false, ite_true, ite_false, List.drop_zero]
  by_cases hm : ct.take 4 = zipMagic
  · simp [hxl, hcs, hm]
  · simp [hxl, hcs, hm]

theorem validate_csvCase (f : UploadedFile) (hpos : f.pos = 0)
    (hio : f.ioError = none)
    (hcsv : endsWithExt (lowerStr f.name) ".csv".data = true)
    (hsz : ¬ 200 * 1024 * 1024 < f.size) :
    validate_uploaded_file f =
      if utf8Valid (f.content.take 1024)
      then ((true, validMsg), f)
      else ((false, csvSigMsg), f) := by
  obtain ⟨nm, sz, ct, pos, io⟩ := f
  simp only at hpos hio hcsv hsz
  subst hpos
  subst hio
  have hext : ([".csv".data, ".xlsx".data].any
      (fun ext => endsWithExt (lowerStr nm) ext)) = true := by
    simp [hcsv]
  have hxl := csv_not_xlsx hcsv
  unfold validate_uploaded_file readBytes seekStart
  simp only [hext, hsz, not_true, if_false, ite_true, ite_false, List.drop_zero]
  by_cases hu : utf8Valid (ct.take 1024)
  · simp [hxl, hcsv, hu]
  · simp [hxl, hcsv, hu]

/-- C3: the validator runs extension, size, signature in order and
short-circuits: a filename outside the (case-insensitive) allow-list
fails with the unsupported-type message regardless of size or content,
and an allow-listed file declaring more than 200 MiB fails with the
size message regardless of content. -/
theorem validate_check_order (f : UploadedFile) :
    (¬ (endsWithExt (lowerStr f.name) ".csv".data = true ∨
        endsWithExt (lowerStr f.name) ".xlsx".data = true) →
      validate_uploaded_file f = ((false, invalidTypeMsg), f)) ∧
    ((endsWithExt (lowerStr f.name) ".csv".data = true ∨
      endsWithExt (lowerStr f.name) ".xlsx".data = true) →
      200 * 1024 * 1024 < f.size →
      validate_uploaded_file f = ((false, sizeLimitMsg), f)) := by
  constructor
  · intro h
    apply validate_badExt
    cases hb : ([".csv".data, ".xlsx".data].any
        (fun ext => endsWithExt (lowerStr f.name) ext)) with
    | false => rfl
    | true => exact absurd (by simpa using hb) h
  · intro h hsz
    exact validate_tooLarge f (by simpa using h) hsz

theorem validate_check_order_witness :
    validate_uploaded_file ⟨"evil.exe".data, 10, [1, 2, 3], 0, none⟩
        = ((false, invalidTypeMsg), ⟨"evil.exe".data, 10, [1, 2, 3], 0, none⟩) ∧
    validate_uploaded_file ⟨"big.csv".data, 300000000, [], 0, none⟩
        = ((false, sizeLimitMsg), ⟨"big.csv".data, 300000000, [], 0, none⟩) :=
  ⟨(validate_check_order ⟨"evil.exe".data, 10, [1, 2, 3], 0, none⟩).1 (by decide),
   (validate_check_order ⟨"big.csv".data, 300000000, [], 0, none⟩).2
     (by decide) (by decide)⟩

/-- C4: for a blob past extension and size checks, the spreadsheet
extension fails with the Excel signature message exactly when the first
4 bytes differ from the ZIP magic; the delimited-text extension passes
exactly when the first 1024 bytes are valid UTF-8; and a read exception
is converted into a fail verdict carrying the exception message. -/
theorem validate_signature (f : UploadedFile) (hpos : f.pos = 0)
    (hsz : ¬ 200 * 1024 * 1024 < f.size) :
    (f.ioError = none → endsWithExt (lowerStr f.name) ".xlsx".data = true →
      validate_uploaded_file f =
        if f.content.take 4 = zipMagic then ((true, validMsg), f)
        else ((false, excelSigMsg), f)) ∧
    (f.ioError = none → endsWithExt (lowerStr f.name) ".csv".data = true →
      validate_uploaded_file f =
        if utf8Valid (f.content.take 1024) then ((true, validMsg), f)
        else ((false, csvSigMsg), f)) ∧
    (∀ e, f.ioError = some e →
      (endsWithExt (lowerStr f.name) ".csv".data = true ∨
       endsWithExt (lowerStr f.name) ".xlsx".data = true) →
      validate_uploaded_file f = ((false, validationErrorMsg e), f)) :=
  ⟨fun hio hxl => validate_xlsxCase f hpos hio hxl hsz,
   fun hio hcsv => validate_csvCase f hpos hio hcsv hsz,
   fun e he hext => validate_ioError f e (by simpa using hext) hsz he⟩

theorem validate_signature_witness :
    validate_uploaded_file ⟨"Report.XLSX".data, 100, [0x50, 0x4B, 0x03, 0x04, 9, 9], 0, none⟩
      = ((true, validMsg), ⟨"Report.XLSX".data, 100, [0x50, 0x4B, 0x03, 0x04, 9, 9], 0, none⟩) ∧
    validate_uploaded_file ⟨"a.xlsx".data, 5, [1, 2, 3, 4], 0, none⟩
      = ((false, excelSigMsg), ⟨"a.xlsx".data, 5, [1, 2, 3, 4], 0, none⟩) ∧
    validate_uploaded_file ⟨"a.csv".data, 3, [0xFF], 0, none⟩
      = ((false, csvSigMsg), ⟨"a.csv".data, 3, [0xFF], 0, none⟩) ∧
    validate_uploaded_file ⟨"a.csv".data, 3, [], 0, some "boom".data⟩
      = ((false, validationErrorMsg "boom".data), ⟨"a.csv".data, 3, [], 0, some "boom".data⟩) := by
  refine ⟨?_, ?_, ?_, ?_⟩
  · rw [(validate_signature _ rfl (by decide)).1 rfl (by decide)]
    decide
  · rw [(validate_signature _ rfl (by decide)).1 rfl (by decide)]
    decide
  · rw [(validate_signature _ rfl (by decide)).2.1 rfl (by decide)]
    decide
  · exact (validate_signature _ rfl (by decide)).2.2 "boom".data rfl (by decide)

/-- C5: for a blob whose read position is at the start, validation
returns the blob in exactly its original state on every path — in
particular reading the full content after validation yields the same
byte sequence as before. -/
theorem validate_restores_position (f : UploadedFile) (hpos : f.pos = 0) :
    (validate_uploaded_file f).2 = f ∧
    (validate_uploaded_file f).2.content.drop (validate_uploaded_file f).2.pos
      = f.content.drop f.pos := by
  have hmain : (validate_uploaded_file f).2 = f := by
    by_cases hext : ([".csv".data, ".xlsx".data].any
        (fun ext => endsWithExt (lowerStr f.name) ext)) = true
    · by_cases hsz : 200 * 1024 * 1024 < f.size
      · rw [validate_tooLarge f hext hsz]
      · cases hio : f.ioError with
        | some e => rw [validate_ioError f e hext hsz hio]
        | none =>
          rcases (by simpa using hext :
              endsWithExt (lowerStr f.name) ".csv".data = true ∨
              endsWithExt (lowerStr f.name) ".xlsx".data = true) with hcsv | hxl
          · rw [validate_csvCase f hpos hio hcsv hsz]
            split <;> rfl
          · rw [validate_xlsxCase f hpos hio hxl hsz]
            split <;> rfl
    · rw [validate_badExt f (by simpa using hext)]
  exact ⟨hmain, by rw [hmain]⟩

theorem validate_restores_position_witness :
    (validate_uploaded_file ⟨"a.csv".data, 2, [104, 105], 0, none⟩).2
      = ⟨"a.csv".data, 2, [104, 105], 0, none⟩ :=
  (validate_restores_position ⟨"a.csv".data, 2, [104, 105], 0, none⟩ rfl).1

theorem utf8Valid_replicate_low (n : Nat) (a : Nat) (ha : a < 0x80) (r : List Nat) :
    utf8Valid (List.replicate n a ++ r) = utf8Valid r := by
  induction n with
  | zero => rw [List.replicate_zero, List.nil_append]
  | succ m ih =>
    rw [List.replicate_succ, List.cons_append]
    show utf8Valid (a :: (List.replicate m a ++ r)) = utf8Valid r
    unfold utf8Valid
    rw [utf8Go.eq_def]
    dsimp only
    rw [if_pos ha]
    exact ih

/-- A `.csv` blob whose full content is valid UTF-8 but whose 1024-byte
prefix cuts a two-byte character in half. -/
def truncCsvBlob : UploadedFile :=
  ⟨"data.csv".data, 1025, List.replicate 1023 0x41 ++ [0xC3, 0xA9], 0, none⟩

/-- C10: the delimited-text check decodes exactly the first 1024 bytes
in isolation: every `.csv` blob of at most 1024 bytes of valid UTF-8
(including the empty blob) passes, while a `.csv` blob that is valid
UTF-8 in full but whose 1024-byte prefix ends mid-character is rejected
with the signature-mismatch message. -/
theorem validate_csv_prefix_isolation :
    (∀ f : UploadedFile, f.pos = 0 → f.ioError = none →
      endsWithExt (lowerStr f.name) ".csv".data = true →
      ¬ 200 * 1024 * 1024 < f.size →
      f.content.length ≤ 1024 → utf8Valid f.content = true →
      validate_uploaded_file f = ((true, validMsg), f)) ∧
    (utf8Valid truncCsvBlob.content = true ∧
     validate_uploaded_file truncCsvBlob = ((false, csvSigMsg), truncCsvBlob)) := by
  constructor
  · intro f hpos hio hcsv hsz hlen hu
    rw [validate_csvCase f hpos hio hcsv hsz, List.take_of_length_le hlen, if_pos hu]
  · constructor
    · show utf8Valid (List.replicate 1023 0x41 ++ [0xC3, 0xA9]) = true
      rw [utf8Valid_replicate_low 1023 0x41 (by decide)]
      decide
    · rw [validate_csvCase truncCsvBlob rfl rfl (by decide) (by decide)]
      have htake : truncCsvBlob.content.take 1024
          = List.replicate 1023 0x41 ++ [0xC3] := by
        show (List.replicate 1023 0x41 ++ [0xC3, 0xA9]).take 1024 = _
        rw [List.take_append_eq_append_take,
          List.take_of_length_le (by rw [List.length_replicate]; omega)]
        rw [List.length_replicate]
        norm_num
      rw [htake, utf8Valid_replicate_low 1023 0x41 (by decide)]
      have hfalse : utf8Valid [0xC3] = false := by decide
      rw [hfalse, if_neg (by decide)]

theorem validate_csv_prefix_isolation_witness :
    validate_uploaded_file ⟨"notes.csv".data, 2, [104, 105], 0, none⟩
      = ((true, validMsg), ⟨"notes.csv".data, 2, [104, 105], 0, none⟩) ∧
    validate_uploaded_file ⟨"empty.csv".data, 0, [], 0, none⟩
      = ((true, validMsg), ⟨"empty.csv".data, 0, [], 0, none⟩) :=
  ⟨validate_csv_prefix_isolation.1 ⟨"notes.csv".data, 2, [104, 105], 0, none⟩
     rfl rfl (by decide) (by decide) (by decide) (by decide),
   validate_csv_prefix_isolation.1 ⟨"empty.csv".data, 0, [], 0, none⟩
     rfl rfl (by decide) (by decide) (by decide) (by decide)⟩

/-! ### Narrative renderer -/

/-- The two interface languages of the app. -/
inductive UiLang where
  | english
  | arabic
deriving DecidableEq

/-- A rendering operation issued against the PDF object: page creation,
font selection, a single centred/aligned cell, a wrapped multi-cell, a
horizontal rule, or vertical spacing. -/
inductive Op where
  | addPage
  | setFont (family : List Char) (style : List Char) (size : Nat)
  | cell (text : List Char) (align : Char)
  | multiCell (text : List Char) (align : Char)
  | hline
  | lnSpace (n : Nat)
deriving DecidableEq

/-- Which of the three candidate font files exist on the local system,
and whether loading a found font into the PDF object raises
(`PDFReport.__init__`, `src/my_agent.py` lines 348-374). -/
structure RenderEnv where
  hasArial : Bool
  hasDejaVu : Bool
  hasWinArial : Bool
  addFontFails : Bool
deriving DecidableEq

/-- The flag `PDFReport.has_custom_font` after `__init__`: some candidate font
was found and loading it succeeded. -/
def pdfHasCustomFont (env : RenderEnv) : Bool :=
  (env.hasArial || env.hasDejaVu || env.hasWinArial) && !env.addFontFails

/-- Python `str.strip` whitespace (ASCII set). -/
def isPySpace (c : Char) : Bool :=
  c = ' ' ∨ c = '\t' ∨ c = '\n' ∨ c = '\x0b' ∨ c = '\x0c' ∨ c = '\r'

/-- Python `line.strip()`. -/
def pyStrip (l : List Char) : List Char :=
  ((l.dropWhile isPySpace).reverse.dropWhile isPySpace).reverse

/-- Python `content.split('\n')`. -/
def splitNl : List Char → List (List Char)
  | [] => [[]]
  | c :: rest =>
    if c = '\n' then [] :: splitNl rest
    else
      match splitNl rest with
      | h :: t => (c :: h) :: t
      | [] => [[c]]

def isMarker (c : Char) : Bool := c = '*' ∨ c = '#'

/-- Python `re.sub(r'^[*#]+\s*', '', line)`: when the line starts with a
marker, drop the leading run of markers and the following whitespace. -/
def subLeadingMarkers (l : List Char) : List Char :=
  match l with
  | [] => []
  | c :: _ => if isMarker c then (l.dropWhile isMarker).dropWhile isPySpace else l

/-- Python `line.startswith('#') or line.startswith('**')` on the
stripped line (`src/my_agent.py` line 432). -/
def isHeaderLine (l : List Char) : Bool :=
  l.take 1 = ['#'] ∨ l.take 2 = ['*', '*']

/-- Python `clean_line = re.sub(r'^[*#]+\s*', '', line).replace('**', '').strip()`
(`src/my_agent.py` line 435). -/
def cleanLine (l : List Char) : List Char :=
  pyStrip (replaceAllBy (fun c => c) "**".data [] (subLeadingMarkers l))

/-- The operations issued for one line of the narrative loop
(`generate_pdf_bytes`, `src/my_agent.py` lines 424-466). -/
def lineOps (reshape bidi : List Char → List Char) (custom : Bool) (lang : UiLang)
    (raw : List Char) : List Op :=
  let line := pyStrip raw
  if line = [] then [Op.lnSpace 5]
  else
    let clean := cleanLine line
    let txt := if lang = UiLang.arabic ∧ custom = true then bidi (reshape clean) else clean
    let al : Char := if lang = UiLang.arabic ∧ custom = true then 'R' else 'L'
    let fam := if custom then "CustomFont".data else "Arial".data
    if isHeaderLine line then
      [Op.setFont fam "B".data 14, Op.lnSpace 5, Op.cell txt al] ++
        (if line.take 1 = ['#'] then [Op.hline] else []) ++ [Op.lnSpace 2]
    else
      [Op.setFont fam "".data 11, Op.multiCell txt al]

/-- The operations issued for the title block: title line and
generated-on line, both centred (`src/my_agent.py` lines 392-419). -/
def titleOps (reshape bidi : List Char → List Char) (custom : Bool)
    (title gen : List Char) (lang : UiLang) : List Op :=
  let fam := if custom then "CustomFont".data else "Arial".data
  [Op.addPage, Op.setFont fam "B".data 18] ++
    (if lang = UiLang.arabic ∧ custom = true then
      [Op.cell (bidi (reshape title)) 'C', Op.setFont fam "".data 10,
       Op.cell (bidi (reshape gen)) 'C', Op.lnSpace 10]
    else
      [Op.cell title 'C', Op.setFont fam "".data 10,
       Op.cell gen 'C', Op.lnSpace 10])

/-- The full operation trace of one render call: the title block
followed by the per-line operations of the split narrative. -/
def renderOps (reshape bidi : List Char → List Char) (env : RenderEnv)
    (content title gen : List Char) (lang : UiLang) : List Op :=
  let custom := pdfHasCustomFont env
  titleOps reshape bidi custom title gen lang ++
    ((splitNl content).map (lineOps reshape bidi custom lang)).flatten

/-- Modelled from the spec: the external PDF library's internal document
string — a serialization of the issued operations; the source delegates
this to FPDF (`pdf.output(dest='S')`). -/
def serializeOp : Op → List Char
  | Op.addPage => "<page>".data
  | Op.setFont fam st _ => "<font ".data ++ fam ++ " ".data ++ st ++ ">".data
  | Op.cell t a => "<cell ".data ++ [a] ++ " ".data ++ t ++ ">".data
  | Op.multiCell t a => "<mcell ".data ++ [a] ++ " ".data ++ t ++ ">".data
  | Op.hline => "<hline>".data
  | Op.lnSpace _ => "<ln>".data

/-- Modelled from the spec: the document string of a whole trace. -/
def serializeOps (ops : List Op) : List Char :=
  (ops.map serializeOp).flatten

/-- Python `str.encode('latin-1')`: one byte per character, raising
when any code point exceeds `0xFF`. -/
def latin1Encode (s : List Char) : Option (List Nat) :=
  if s.all (fun c => c.toNat ≤ 255) then some (s.map Char.toNat) else none

/-- Embedding of `generate_pdf_bytes` (`src/my_agent.py` lines 387-473):
build the trace, serialize it through the PDF object, latin-1 encode.
The surrounding `try` turns every internal exception — the `None`
translation dictionary being subscripted, or a document string that is
not latin-1 encodable — into a logged `None` result.  `reshape` and
`bidi` model the external `arabic_reshaper.reshape` and
`bidi.algorithm.get_display` transforms; `tdict` carries the formatted
generated-on line, `none` when no translation dictionary was given. -/
def generate_pdf_bytes (reshape bidi : List Char → List Char) (env : RenderEnv)
    (content title : List Char) (lang : UiLang) (tdict : Option (List Char)) :
    Option (List Nat) :=
  match tdict with
  | none => none
  | some gen =>
      latin1Encode (serializeOps (renderOps reshape bidi env content title gen lang))

theorem lineOps_blank (rs bd : List Char → List Char) (custom : Bool)
    (lang : UiLang) (raw : List Char) (h : pyStrip raw = []) :
    lineOps rs bd custom lang raw = [Op.lnSpace 5] := by
  unfold lineOps
  rw [h]
  simp

theorem lineOps_header (rs bd : List Char → List Char) (custom : Bool)
    (lang : UiLang) (raw : List Char) (h0 : pyStrip raw ≠ [])
    (h1 : isHeaderLine (pyStrip raw) = true) :
    lineOps rs bd custom lang raw =
      [Op.setFont (if custom then "CustomFont".data else "Arial".data) "B".data 14,
       Op.lnSpace 5,
       Op.cell
         (if lang = UiLang.arabic ∧ custom = true
          then bd (rs (cleanLine (pyStrip raw))) else cleanLine (pyStrip raw))
         (if lang = UiLang.arabic ∧ custom = true then 'R' else 'L')] ++
      (if (pyStrip raw).take 1 = ['#'] then [Op.hline] else []) ++
      [Op.lnSpace 2] := by
  unfold lineOps
  rw [if_neg h0, if_pos h1]

theorem lineOps_body (rs bd : List Char → List Char) (custom : Bool)
    (lang : UiLang) (raw : List Char) (h0 : pyStrip raw ≠ [])
    (h1 : isHeaderLine (pyStrip raw) = false) :
    lineOps rs bd custom lang raw =
      [Op.setFont (if custom then "CustomFont".data else "Arial".data) "".data 11,
       Op.multiCell
         (if lang = UiLang.arabic ∧ custom = true
          then bd (rs (cleanLine (pyStrip raw))) else cleanLine (pyStrip raw))
         (if lang = UiLang.arabic ∧ custom = true then 'R' else 'L')] := by
  unfold lineOps
  rw [if_neg h0, if_neg (by rw [h1]; exact Bool.false_ne_true)]

theorem lineOps_textOps_arabic (rs bd : List Char → List Char)
    (lang : UiLang) (raw : List Char) (op : Op) (s : List Char) (a : Char)
    (hlang : lang = UiLang.arabic)
    (h : op ∈ lineOps rs bd true lang raw)
    (hop : op = Op.cell s a ∨ op = Op.multiCell s a) :
    s = bd (rs (cleanLine (pyStrip raw))) ∧ a = 'R' := by
  subst hlang
  by_cases hb : pyStrip raw = []
  · rw [lineOps_blank rs bd true UiLang.arabic raw hb] at h
    rcases hop with rfl | rfl <;> simp at h
  · cases hh : isHeaderLine (pyStrip raw) with
    | true =>
      rw [lineOps_header rs bd true UiLang.arabic raw hb hh] at h
      by_cases hsh : (pyStrip raw).take 1 = ['#']
      · rw [if_pos hsh] at h
        rcases hop with rfl | rfl <;> simp at h
        exact ⟨h.1, h.2⟩
      · rw [if_neg hsh] at h
        rcases hop with rfl | rfl <;> simp at h
        exact ⟨h.1, h.2⟩
    | false =>
      rw [lineOps_body rs bd true UiLang.arabic raw hb hh] at h
      rcases hop with rfl | rfl <;> simp at h
      exact ⟨h.1, h.2⟩

theorem lineOps_textOps_plain (rs bd : List Char → List Char) (custom : Bool)
    (lang : UiLang) (raw : List Char) (op : Op) (s : List Char) (a : Char)
    (hcond : ¬ (lang = UiLang.arabic ∧ custom = true))
    (h : op ∈ lineOps rs bd custom lang raw)
    (hop : op = Op.cell s a ∨ op = Op.multiCell s a) :
    s = cleanLine (pyStrip raw) ∧ a = 'L' := by
  by_cases hb : pyStrip raw = []
  · rw [lineOps_blank rs bd custom lang raw hb] at h
    rcases hop with rfl | rfl <;> simp at h
  · cases hh : isHeaderLine (pyStrip raw) with
    | true =>
      rw [lineOps_header rs bd custom lang raw hb hh] at h
      rw [if_neg hcond, if_neg hcond] at h
      by_cases hsh : (pyStrip raw).take 1 = ['#']
      · rw [if_pos hsh] at h
        rcases hop with rfl | rfl <;> simp at h
        exact ⟨h.1, h.2⟩
      · rw [if_neg hsh] at h
        rcases hop with rfl | rfl <;> simp at h
        exact ⟨h.1, h.2⟩
    | false =>
      rw [lineOps_body rs bd custom lang raw hb hh] at h
      rw [if_neg hcond, if_neg hcond] at h
      rcases hop with rfl | rfl <;> simp at h
      exact ⟨h.1, h.2⟩

theorem lineOps_fontOps (rs bd : List Char → List Char) (custom : Bool)
    (lang : UiLang) (raw : List Char) (op : Op) (fam st : List Char) (sz : Nat)
    (h : op ∈ lineOps rs bd custom lang raw)
    (hop : op = Op.setFont fam st sz) :
    fam = (if custom then "CustomFont".data else "Arial".data) := by
  subst hop
  by_cases hb : pyStrip raw = []
  · rw [lineOps_blank rs bd custom lang raw hb] at h
    simp at h
  · cases hh : isHeaderLine (pyStrip raw) with
    | true =>
      rw [lineOps_header rs bd custom lang raw hb hh] at h
      by_cases hsh : (pyStrip raw).take 1 = ['#']
      · rw [if_pos hsh] at h
        simp at h
        exact h.1
      · rw [if_neg hsh] at h
        simp at h
        exact h.1
    | false =>
      rw [lineOps_body rs bd custom lang raw hb hh] at h
      simp at h
      exact h.1

theorem titleOps_textOps (rs bd : List Char → List Char) (custom : Bool)
    (title gen : List Char) (lang : UiLang) (op : Op) (s : List Char) (a : Char)
    (h : op ∈ titleOps rs bd custom title gen lang)
    (hop : op = Op.cell s a ∨ op = Op.multiCell s a) :
    a = 'C' ∧
    ((lang = UiLang.arabic ∧ custom = true) →
        s = bd (rs title) ∨ s = bd (rs gen)) ∧
    (¬ (lang = UiLang.arabic ∧ custom = true) → s = title ∨ s = gen) := by
  simp only [titleOps] at h
  by_cases hcond : lang = UiLang.arabic ∧ custom = true
  · rw [if_pos hcond] at h
    rcases hop with rfl | rfl <;> simp at h
    rcases h with ⟨h1, h2⟩ | ⟨h1, h2⟩
    · exact ⟨h2, fun _ => Or.inl h1, fun hn => absurd hcond hn⟩
    · exact ⟨h2, fun _ => Or.inr h1, fun hn => absurd hcond hn⟩
  · rw [if_neg hcond] at h
    rcases hop with rfl | rfl <;> simp at h
    rcases h with ⟨h1, h2⟩ | ⟨h1, h2⟩
    · exact ⟨h2, fun hc => absurd hc hcond, fun _ => Or.inl h1⟩
    · exact ⟨h2, fun hc => absurd hc hcond, fun _ => Or.inr h1⟩

theorem titleOps_fontOps (rs bd : List Char → List Char) (custom : Bool)
    (title gen : List Char) (lang : UiLang) (op : Op) (fam st : List Char) (sz : Nat)
    (h : op ∈ titleOps rs bd custom title gen lang)
    (hop : op = Op.setFont fam st sz) :
    fam = (if custom then "CustomFont".data else "Arial".data) := by
  subst hop
  simp only [titleOps] at h
  by_cases hcond : lang = UiLang.arabic ∧ custom = true
  · rw [if_pos hcond] at h
    simp at h
    rcases h with ⟨h1, _⟩ | ⟨h1, _⟩ <;> exact h1
  · rw [if_neg hcond] at h
    simp at h
    rcases h with ⟨h1, _⟩ | ⟨h1, _⟩ <;> exact h1

theorem lineOps_english_free (rs bd rs' bd' : List Char → List Char)
    (custom : Bool) (raw : List Char) :
    lineOps rs bd custom UiLang.english raw
      = lineOps rs' bd' custom UiLang.english raw := by
  unfold lineOps
  simp

theorem titleOps_english_free (rs bd rs' bd' : List Char → List Char)
    (custom : Bool) (title gen : List Char) :
    titleOps rs bd custom title gen UiLang.english
      = titleOps rs' bd' custom title gen UiLang.english := by
  unfold titleOps
  simp

theorem lineOps_nofont_free (rs bd rs' bd' : List Char → List Char)
    (lang lang' : UiLang) (raw : List Char) :
    lineOps rs bd false lang raw = lineOps rs' bd' false lang' raw := by
  unfold lineOps
  simp

theorem titleOps_nofont_free (rs bd rs' bd' : List Char → List Char)
    (lang lang' : UiLang) (title gen : List Char) :
    titleOps rs bd false title gen lang = titleOps rs' bd' false title gen lang' := by
  unfold titleOps
  simp

/-- C6: the renderer maps blank lines to vertical spacing only,
classifies a stripped non-blank line as a heading exactly when it
starts with `#` or `**`, renders headings in the larger bold weight
with a horizontal rule exactly under hash-marked headings, renders
body lines in the smaller regular weight as wrapped multi-cells, and
strips leading markers and bold-marker pairs from every visible line;
the spec's two-line example produces exactly the expected trace. -/
theorem render_line_classification :
    (∀ (rs bd : List Char → List Char) (custom : Bool) (lang : UiLang)
        (raw : List Char), pyStrip raw = [] →
      lineOps rs bd custom lang raw = [Op.lnSpace 5]) ∧
    (∀ (rs bd : List Char → List Char) (custom : Bool) (lang : UiLang)
        (raw : List Char), pyStrip raw ≠ [] → isHeaderLine (pyStrip raw) = true →
      lineOps rs bd custom lang raw =
        [Op.setFont (if custom then "CustomFont".data else "Arial".data) "B".data 14,
         Op.lnSpace 5,
         Op.cell
           (if lang = UiLang.arabic ∧ custom = true
            then bd (rs (cleanLine (pyStrip raw))) else cleanLine (pyStrip raw))
           (if lang = UiLang.arabic ∧ custom = true then 'R' else 'L')] ++
        (if (pyStrip raw).take 1 = ['#'] then [Op.hline] else []) ++
        [Op.lnSpace 2]) ∧
    (∀ (rs bd : List Char → List Char) (custom : Bool) (lang : UiLang)
        (raw : List Char), pyStrip raw ≠ [] → isHeaderLine (pyStrip raw) = false →
      lineOps rs bd custom lang raw =
        [Op.setFont (if custom then "CustomFont".data else "Arial".data) "".data 11,
         Op.multiCell
           (if lang = UiLang.arabic ∧ custom = true
            then bd (rs (cleanLine (pyStrip raw))) else cleanLine (pyStrip raw))
           (if lang = UiLang.arabic ∧ custom = true then 'R' else 'L')]) ∧
    renderOps (fun s => s) (fun s => s) ⟨false, false, false, false⟩
        "# Summary\nRevenue grew 10%.".data "AJ Analysis Report".data
        "Generated on: 2026-02-03".data UiLang.english
      = [Op.addPage, Op.setFont "Arial".data "B".data 18,
         Op.cell "AJ Analysis Report".data 'C',
         Op.setFont "Arial".data "".data 10,
         Op.cell "Generated on: 2026-02-03".data 'C', Op.lnSpace 10,
         Op.setFont "Arial".data "B".data 14, Op.lnSpace 5,
         Op.cell "Summary".data 'L', Op.hline, Op.lnSpace 2,
         Op.setFont "Arial".data "".data 11,
         Op.multiCell "Revenue grew 10%.".data 'L'] :=
  ⟨lineOps_blank, lineOps_header, lineOps_body, by decide⟩

theorem render_line_classification_witness :
    lineOps (fun s => s) (fun s => s) false UiLang.english "## Findings".data
      = [Op.setFont "Arial".data "B".data 14, Op.lnSpace 5,
         Op.cell "Findings".data 'L', Op.hline, Op.lnSpace 2] ∧
    lineOps (fun s => s) (fun s => s) false UiLang.english "Body text".data
      = [Op.setFont "Arial".data "".data 11,
         Op.multiCell "Body text".data 'L'] ∧
    lineOps (fun s => s) (fun s => s) false UiLang.english "   ".data
      = [Op.lnSpace 5] := by
  refine ⟨?_, ?_, ?_⟩
  · rw [render_line_classification.2.1 (fun s => s) (fun s => s) false
      UiLang.english "## Findings".data (by decide) (by decide)]
    decide
  · rw [render_line_classification.2.2.1 (fun s => s) (fun s => s) false
      UiLang.english "Body text".data (by decide) (by decide)]
    decide
  · exact render_line_classification.1 (fun s => s) (fun s => s) false
      UiLang.english "   ".data (by decide)

/-- C7 counterexample: with the secondary-script language and a found
font, the title line is emitted centred (`align='C'`), not
right-aligned, so the claim that every visible line including the
title is right-aligned fails on this concrete render. -/
theorem render_rtl_alignment_counterexample :
    Op.cell "T".data 'C' ∈
      renderOps (fun s => s) (fun s => s) ⟨true, false, false, false⟩ []
        "T".data "G".data UiLang.arabic ∧
    ('C' : Char) ≠ 'R' := by decide

/-- C7 (amended): with the secondary-script language and a found font,
every visible text is passed through the reshaping transform followed
by the bidirectional-reordering transform, and every content line is
right-aligned, while the title and generated-on lines are centred; with
the primary-script language the trace is independent of the transforms
(no reshaping) and every content line is left-aligned, the title and
generated-on lines again centred. -/
theorem render_rtl_amended (rs bd : List Char → List Char) (env : RenderEnv)
    (c t g : List Char) (hfont : pdfHasCustomFont env = true) :
    (∀ op ∈ renderOps rs bd env c t g UiLang.arabic, ∀ s a,
        (op = Op.cell s a ∨ op = Op.multiCell s a) → ∃ u, s = bd (rs u)) ∧
    (∀ op ∈ ((splitNl c).map (lineOps rs bd true UiLang.arabic)).flatten, ∀ s a,
        (op = Op.cell s a ∨ op = Op.multiCell s a) → a = 'R') ∧
    (Op.cell (bd (rs t)) 'C' ∈ renderOps rs bd env c t g UiLang.arabic ∧
     Op.cell t 'C' ∈ renderOps rs bd env c t g UiLang.english) ∧
    (∀ rs' bd' : List Char → List Char,
        renderOps rs bd env c t g UiLang.english
          = renderOps rs' bd' env c t g UiLang.english) ∧
    (∀ op ∈ ((splitNl c).map (lineOps rs bd true UiLang.english)).flatten, ∀ s a,
        (op = Op.cell s a ∨ op = Op.multiCell s a) → a = 'L') := by
  refine ⟨?_, ?_, ⟨?_, ?_⟩, ?_, ?_⟩
  · intro op hop s a hsa
    unfold renderOps at hop
    rw [hfont] at hop
    rcases List.mem_append.mp hop with hT | hL
    · rcases (titleOps_textOps rs bd true t g UiLang.arabic op s a hT hsa).2.1
        ⟨rfl, rfl⟩ with h1 | h1
      · exact ⟨t, h1⟩
      · exact ⟨g, h1⟩
    · rcases List.mem_flatten.mp hL with ⟨l, hl, hopl⟩
      rcases List.mem_map.mp hl with ⟨raw, _, rfl⟩
      exact ⟨cleanLine (pyStrip raw),
        (lineOps_textOps_arabic rs bd UiLang.arabic raw op s a rfl hopl hsa).1⟩
  · intro op hop s a hsa
    rcases List.mem_flatten.mp hop with ⟨l, hl, hopl⟩
    rcases List.mem_map.mp hl with ⟨raw, _, rfl⟩
    exact (lineOps_textOps_arabic rs bd UiLang.arabic raw op s a rfl hopl hsa).2
  · unfold renderOps
    rw [hfont]
    apply List.mem_append.mpr
    left
    simp [titleOps]
  · unfold renderOps
    rw [hfont]
    apply List.mem_append.mpr
    left
    simp [titleOps]
  · intro rs' bd'
    simp only [renderOps]
    rw [titleOps_english_free rs bd rs' bd']
    rw [List.map_congr_left
      (fun raw _ => lineOps_english_free rs bd rs' bd' (pdfHasCustomFont env) raw)]
  · intro op hop s a hsa
    rcases List.mem_flatten.mp hop with ⟨l, hl, hopl⟩
    rcases List.mem_map.mp hl with ⟨raw, _, rfl⟩
    exact (lineOps_textOps_plain rs bd true UiLang.english raw op s a
      (by simp) hopl hsa).2

theorem render_rtl_amended_witness :
    (∀ op ∈ renderOps (fun s => '>' :: s) (fun s => s.reverse)
        ⟨true, false, false, false⟩ "hello".data "T".data "G".data UiLang.arabic,
      ∀ s a, (op = Op.cell s a ∨ op = Op.multiCell s a) →
        ∃ u, s = ('>' :: u).reverse) ∧
    Op.cell "T".data 'C' ∈ renderOps (fun s => '>' :: s) (fun s => s.reverse)
        ⟨true, false, false, false⟩ "hello".data "T".data "G".data UiLang.english :=
  ⟨(render_rtl_amended (fun s => '>' :: s) (fun s => s.reverse)
      ⟨true, false, false, false⟩ "hello".data "T".data "G".data (by decide)).1,
   (render_rtl_amended (fun s => '>' :: s) (fun s => s.reverse)
      ⟨true, false, false, false⟩ "hello".data "T".data "G".data (by decide)).2.2.1.2⟩

/-- C9 counterexample: with the secondary-script language but no usable
font, the title line is still emitted centred (`align='C'`), not
left-aligned, so the claim that every line including the title is
placed left-aligned fails on this concrete render. -/
theorem render_fallback_counterexample :
    Op.cell "T".data 'C' ∈
      renderOps (fun s => s) (fun s => s) ⟨false, false, false, false⟩ []
        "T".data "G".data UiLang.arabic ∧
    ('C' : Char) ≠ 'L' := by decide

/-- C9 (amended): with the secondary-script language but no usable font
(none found, or loading failed), the render degrades to exactly the
primary-script treatment: the trace equals the primary-script trace, is
independent of the reshaping and reordering transforms, uses only the
built-in `Arial` font family, and places every content line
left-aligned — the title and generated-on lines stay centred. -/
theorem render_fallback_amended (rs bd : List Char → List Char) (env : RenderEnv)
    (c t g : List Char) (hfont : pdfHasCustomFont env = false) :
    renderOps rs bd env c t g UiLang.arabic
      = renderOps rs bd env c t g UiLang.english ∧
    (∀ rs' bd' : List Char → List Char,
        renderOps rs bd env c t g UiLang.arabic
          = renderOps rs' bd' env c t g UiLang.arabic) ∧
    (∀ op ∈ renderOps rs bd env c t g UiLang.arabic, ∀ fam st sz,
        op = Op.setFont fam st sz → fam = "Arial".data) ∧
    (∀ op ∈ ((splitNl c).map (lineOps rs bd false UiLang.arabic)).flatten, ∀ s a,
        (op = Op.cell s a ∨ op = Op.multiCell s a) → a = 'L') ∧
    (Op.cell t 'C' ∈ renderOps rs bd env c t g UiLang.arabic) := by
  refine ⟨?_, ?_, ?_, ?_, ?_⟩
  · simp only [renderOps]
    rw [hfont]
    rw [titleOps_nofont_free rs bd rs bd UiLang.arabic UiLang.english]
    rw [List.map_congr_left
      (fun raw _ => lineOps_nofont_free rs bd rs bd UiLang.arabic UiLang.english raw)]
  · intro rs' bd'
    simp only [renderOps]
    rw [hfont]
    rw [titleOps_nofont_free rs bd rs' bd' UiLang.arabic UiLang.arabic]
    rw [List.map_congr_left
      (fun raw _ => lineOps_nofont_free rs bd rs' bd' UiLang.arabic UiLang.arabic raw)]
  · intro op hop fam st sz hopf
    unfold renderOps at hop
    rw [hfont] at hop
    rcases List.mem_append.mp hop with hT | hL
    · have := titleOps_fontOps rs bd false t g UiLang.arabic op fam st sz hT hopf
      simpa using this
    · rcases List.mem_flatten.mp hL with ⟨l, hl, hopl⟩
      rcases List.mem_map.mp hl with ⟨raw, _, rfl⟩
      have := lineOps_fontOps rs bd false UiLang.arabic raw op fam st sz hopl hopf
      simpa using this
  · intro op hop s a hsa
    rcases List.mem_flatten.mp hop with ⟨l, hl, hopl⟩
    rcases List.mem_map.mp hl with ⟨raw, _, rfl⟩
    exact (lineOps_textOps_plain rs bd false UiLang.arabic raw op s a
      (by simp) hopl hsa).2
  · unfold renderOps
    rw [hfont]
    apply List.mem_append.mpr
    left
    simp [titleOps]

theorem render_fallback_amended_witness :
    renderOps (fun s => '>' :: s) (fun s => s.reverse)
        ⟨false, false, false, false⟩ "hi".data "T".data "G".data UiLang.arabic
      = renderOps (fun s => '>' :: s) (fun s => s.reverse)
        ⟨false, false, false, false⟩ "hi".data "T".data "G".data UiLang.english :=
  (render_fallback_amended (fun s => '>' :: s) (fun s => s.reverse)
    ⟨false, false, false, false⟩ "hi".data "T".data "G".data (by decide)).1

/-- C8: the renderer is a total function returning an optional byte
sequence: a missing translation dictionary (an internal exception)
yields the failure marker instead of an escaping exception, and on
success the result is exactly the latin-1 encoding of the internal
document string — impossible (again the failure marker) when that
string contains a character above `0xFF`. -/
theorem render_error_handling (rs bd : List Char → List Char) (env : RenderEnv)
    (content title : List Char) (lang : UiLang) :
    generate_pdf_bytes rs bd env content title lang none = none ∧
    (∀ gen : List Char,
      ((∀ ch ∈ serializeOps (renderOps rs bd env content title gen lang),
          ch.toNat ≤ 255) →
        generate_pdf_bytes rs bd env content title lang (some gen)
          = some ((serializeOps
              (renderOps rs bd env content title gen lang)).map Char.toNat)) ∧
      ((∃ ch ∈ serializeOps (renderOps rs bd env content title gen lang),
          255 < ch.toNat) →
        generate_pdf_bytes rs bd env content title lang (some gen) = none)) := by
  refine ⟨rfl, fun gen => ⟨?_, ?_⟩⟩
  · intro hall
    unfold generate_pdf_bytes latin1Encode
    dsimp only
    rw [if_pos]
    simp only [List.all_eq_true, decide_eq_true_eq]
    exact hall
  · rintro ⟨ch, hmem, J⟩
    unfold generate_pdf_bytes latin1Encode
    dsimp only
    rw [if_neg]
    intro hall
    rw [List.all_eq_true] at hall
    have := hall ch hmem
    simp only [decide_eq_true_eq] at this
    omega

theorem render_error_handling_witness :
    generate_pdf_bytes (fun s => s) (fun s => s) ⟨false, false, false, false⟩
        [] [] UiLang.english none = none ∧
    generate_pdf_bytes (fun s => s) (fun s => s) ⟨false, false, false, false⟩
        [] "T".data UiLang.english (some "G".data)
      = some ((serializeOps (renderOps (fun s => s) (fun s => s)
          ⟨false, false, false, false⟩ [] "T".data "G".data UiLang.english)).map
            Char.toNat) ∧
    generate_pdf_bytes (fun s => s) (fun s => s) ⟨false, false, false, false⟩
        [] "عنوان".data UiLang.english (some "G".data) = none := by
  refine ⟨?_, ?_, ?_⟩
  · exact (render_error_handling (fun s => s) (fun s => s)
      ⟨false, false, false, false⟩ [] [] UiLang.english).1
  · exact ((render_error_handling (fun s => s) (fun s => s)
      ⟨false, false, false, false⟩ [] "T".data UiLang.english).2 "G".data).1
      (by decide)
  · exact ((render_error_handling (fun s => s) (fun s => s)
      ⟨false, false, false, false⟩ [] "عنوان".data UiLang.english).2 "G".data).2
      (by decide)
